import Mathlib

/-!
Verification of the elastic-network-model crate (Anisotropic Network Model).

This file gives a shallow embedding of `src/enm.rs`:

* `build_hessian_matrix` builds the 3N×3N Hessian of pairwise harmonic springs
  below a distance cutoff, with an optional mass-weighting step;
* `calculate_normal_modes` sorts the eigenpairs of that matrix by eigenvalue,
  optionally converts eigenvalues to frequencies, and drops the six lowest modes.

Modelling conventions:

* `f64` values are modelled by an arbitrary `LinearOrderedField` (instantiated at
  `ℝ` in all claim theorems), so the definitions stay computable; `f64::sqrt` is
  noncomputable at `ℝ` (`Real.sqrt`), so it is passed to the definitions as an
  explicit parameter `fsqrt` and fixed to `Real.sqrt` in every theorem.
* The dense `DMatrix<f64>` is modelled as a total function `ℕ → ℕ → α`; the code
  only ever reads and writes indices below `3 * n`.
* The `assert_eq!` abort on a mass-array length mismatch is modelled by an
  `Option` result (`none` = the computation aborts, no matrix is produced).
* nalgebra's `symmetric_eigen` is an external, infallible primitive; it is
  abstracted as a total function producing an eigenvalue list and matching
  eigenvector columns.
* The `OrderedFloat` sort key of the `ordered-float` crate is modelled on a
  dedicated type `F64` of floating-point values (finite values, the two
  infinities, NaN); on the NaN-free values that `ℝ` models, it coincides with
  the numeric order, which the `ℝ`-level theorems take as a comparator argument.
-/

namespace ENM

/-- The `AnisotropicNetworkModel` configuration struct of `enm.rs` (lines 12-17):
distance `cutoff`, spring constant `gamma`, and the `mass_weighted` flag. -/
structure AnisotropicNetworkModel (α : Type) where
  cutoff : α
  gamma : α
  mass_weighted : Bool

/-- The `Default` impl (enm.rs lines 19-27): cutoff 15.0, gamma 1.0,
mass_weighted false. -/
def anmDefault {α : Type} [LinearOrderedField α] : AnisotropicNetworkModel α :=
  ⟨15.0, 1.0, false⟩

/-- The mass-weighted configuration with the default cutoff and spring constant,
used by the concrete evaluations below. -/
def anmMassWeighted {α : Type} [LinearOrderedField α] : AnisotropicNetworkModel α :=
  ⟨15.0, 1.0, true⟩

/-- Component access of a coordinate `[f64; 3]`, modelled as a triple. -/
def comp {α : Type} (v : α × α × α) : ℕ → α
  | 0 => v.1
  | 1 => v.2.1
  | _ => v.2.2

/-- The displacement `rij = rj - ri` of the pair `(i, j)` (enm.rs lines 77-79),
componentwise; out-of-range indices read the dummy origin, which the loop never
produces. -/
def rijOf {α : Type} [LinearOrderedField α] (coords : List (α × α × α)) (i j : ℕ) :
    ℕ → α :=
  fun k => comp (coords.getD j (0, 0, 0)) k - comp (coords.getD i (0, 0, 0)) k

/-- The 3×3 rank-one super element `-gamma / dist2 * rij * rij.transpose()`
(enm.rs line 82), as a function of block-local indices. -/
def superElement {α : Type} [LinearOrderedField α] (gamma : α) (rij : ℕ → α)
    (dist2 : α) : ℕ → ℕ → α :=
  fun a b => -gamma / dist2 * rij a * rij b

/-- `hessian.fixed_slice_mut::<3, 3>(r, c).copy_from(&B)`: overwrite the 3×3
window anchored at row `r`, column `c`. -/
def writeBlock {α : Type} (H : ℕ → ℕ → α) (r c : ℕ) (B : ℕ → ℕ → α) : ℕ → ℕ → α :=
  fun a b => if r ≤ a ∧ a < r + 3 ∧ c ≤ b ∧ b < c + 3 then B (a - r) (b - c) else H a b

/-- `hessian.fixed_slice_mut::<3, 3>(r, c) -= B`: subtract from the 3×3 window
anchored at row `r`, column `c`. -/
def subBlock {α : Type} [LinearOrderedField α] (H : ℕ → ℕ → α) (r c : ℕ)
    (B : ℕ → ℕ → α) : ℕ → ℕ → α :=
  fun a b => if r ≤ a ∧ a < r + 3 ∧ c ≤ b ∧ b < c + 3 then H a b - B (a - r) (b - c) else H a b

/-- `hessian[(r, c)] /= d`: in-place division of the single scalar entry `(r, c)`. -/
def divideEntry {α : Type} [LinearOrderedField α] (H : ℕ → ℕ → α) (r c : ℕ) (d : α) :
    ℕ → ℕ → α :=
  fun a b => if a = r ∧ b = c then H a b / d else H a b

/-- `masses.map(|x| x[i]).unwrap_or(12.011)` (enm.rs lines 95-96): the mass of
atom `i`, defaulting to the carbon mass when no mass array was supplied. -/
def atomMass {α : Type} [LinearOrderedField α] (masses : Option (List α)) (i : ℕ) : α :=
  match masses with
  | some ms => ms.getD i 0
  | none => 12.011

/-- `let mij_sqrt = mi.sqrt() * mj.sqrt()` (enm.rs line 97); `fsqrt` abstracts
the `f64::sqrt` primitive. -/
def pairMassFactor {α : Type} [LinearOrderedField α] (fsqrt : α → α)
    (masses : Option (List α)) (i j : ℕ) : α :=
  fsqrt (atomMass masses i) * fsqrt (atomMass masses j)

/-- The four in-place 3×3 block operations performed for a pair `(i, j)` inside
the cutoff (enm.rs lines 83-90), in program order: copy the super element into
the off-diagonal blocks `(i, j)` and `(j, i)`, then subtract it from the
diagonal blocks `(i, i)` and `(j, j)`. -/
def blockStep {α : Type} [LinearOrderedField α] (s : ℕ → ℕ → α) (i j : ℕ)
    (H : ℕ → ℕ → α) : ℕ → ℕ → α :=
  subBlock
    (subBlock
      (writeBlock (writeBlock H (i * 3) (j * 3) s) (j * 3) (i * 3) s)
      (i * 3) (i * 3) s)
    (j * 3) (j * 3) s

/-- The body of the double loop of `build_hessian_matrix` (enm.rs lines 76-100)
for the pair `p = (i, j)`: the cutoff-guarded block operations, then — whether or
not the pair was within the cutoff — if `mass_weighted` is set, the division of
the two scalar entries `hessian[(i, j)]` and `hessian[(j, i)]` by
`sqrt(mass[i]) * sqrt(mass[j])` (enm.rs lines 92-100). -/
def pairUpdate {α : Type} [LinearOrderedField α] (fsqrt : α → α)
    (anm : AnisotropicNetworkModel α) (coords : List (α × α × α))
    (masses : Option (List α)) (H : ℕ → ℕ → α) (p : ℕ × ℕ) : ℕ → ℕ → α :=
  let i := p.1
  let j := p.2
  let rij := rijOf coords i j
  let dist2 := rij 0 ^ 2 + rij 1 ^ 2 + rij 2 ^ 2
  let H1 :=
    if dist2 < anm.cutoff ^ 2 then blockStep (superElement anm.gamma rij dist2) i j H
    else H
  if anm.mass_weighted then
    let mij_sqrt := pairMassFactor fsqrt masses i j
    divideEntry (divideEntry H1 i j mij_sqrt) j i mij_sqrt
  else H1

/-- The index pairs visited by `for i in 0..n { for j in 0..i { ... } }`
(enm.rs lines 74-75), in loop order. -/
def pairsUpTo : ℕ → List (ℕ × ℕ)
  | 0 => []
  | n + 1 => pairsUpTo n ++ (List.range n).map (fun j => (n, j))

/-- The matrix produced by the double loop of `build_hessian_matrix`, starting
from the `3n × 3n` zero matrix `DMatrix::from_vec(3 * n, 3 * n, vec![0.0; ...])`
(enm.rs lines 64, 73-103). -/
def hessianRun {α : Type} [LinearOrderedField α] (fsqrt : α → α)
    (anm : AnisotropicNetworkModel α) (coords : List (α × α × α))
    (masses : Option (List α)) : ℕ → ℕ → α :=
  (pairsUpTo coords.length).foldl (pairUpdate fsqrt anm coords masses) (fun _ _ => 0)

/-- `build_hessian_matrix` (enm.rs lines 62-104). The `assert_eq!` on the length
of a supplied mass array (line 67) aborts the computation before any matrix is
produced; an abort is modelled as `none`. No other input is rejected. -/
def buildHessianMatrix {α : Type} [LinearOrderedField α] (fsqrt : α → α)
    (anm : AnisotropicNetworkModel α) (coords : List (α × α × α))
    (masses : Option (List α)) : Option (ℕ → ℕ → α) :=
  match masses with
  | some ms =>
      if ms.length = coords.length then some (hessianRun fsqrt anm coords masses)
      else none
  | none => some (hessianRun fsqrt anm coords masses)

/-- Translation of every coordinate by the constant vector `t` (used to state the
translation-invariance property of the Hessian). -/
def translateCoords {α : Type} [LinearOrderedField α] (t : α × α × α)
    (coords : List (α × α × α)) : List (α × α × α) :=
  coords.map (fun c => (c.1 + t.1, c.2.1 + t.2.1, c.2.2 + t.2.2))

/-- The stable sort of `(eigenvalue, eigenvector)` pairs by eigenvalue under the
comparator `le`. This models enm.rs lines 116-121 and 126-133: a stable sort of
the eigenvalue indices by `OrderedFloat` key followed by gathering the matching
eigenvector columns is exactly a stable sort of the zipped pairs by first
component. -/
def sortModes {α β : Type} (le : α → α → Bool) (xs : List (α × β)) : List (α × β) :=
  xs.mergeSort (fun x y => le x.1 y.1)

/-- The method `calculate_normal_modes` (enm.rs lines 110-138), downstream of the
delegated eigen-decomposition: sort the eigenpairs ascending by eigenvalue, then
push either the converted frequency `evalues[i].sqrt() * 1302.79` (when
`mass_weighted` is set) or the raw eigenvalue, and finally `skip(6)`. The
comparator `le` abstracts the `OrderedFloat` key and `conv` the noncomputable
conversion; every theorem fixes them to a decision procedure for `≤` on `ℝ` and
to `fun v => Real.sqrt v * 1302.79`. -/
def calculateNormalModes {α β : Type} (le : α → α → Bool) (conv : α → α)
    (anm : AnisotropicNetworkModel α) (evalues : List α) (vectors : List β) :
    List (α × β) :=
  ((sortModes le (evalues.zip vectors)).map
    (fun p => (if anm.mass_weighted then conv p.1 else p.1, p.2))).drop 6

/-- The output of nalgebra's `symmetric_eigen` (enm.rs lines 111-113): a list of
eigenvalues and the matching eigenvector columns. The primitive is external to
the crate and its interface is total — it signals no error to the caller. -/
structure EigenOut (α : Type) where
  eigenvalues : List α
  eigenvectors : List (List α)

/-- `calculate_normal_modes` including the delegated `hessian.symmetric_eigen()`
call (enm.rs line 111); `solver` abstracts that external, infallible primitive. -/
def calculateNormalModesMatrix {α : Type} (le : α → α → Bool) (conv : α → α)
    (anm : AnisotropicNetworkModel α) (solver : (ℕ → ℕ → α) → EigenOut α)
    (hessian : ℕ → ℕ → α) : List (α × List α) :=
  calculateNormalModes le conv anm (solver hessian).eigenvalues
    (solver hessian).eigenvectors

/-- The values of an IEEE `f64` as far as ordering is concerned: finite values
(modelled by rationals), the two infinities, and NaN. -/
inductive F64 : Type where
  | finite (q : ℚ)
  | posInf
  | negInf
  | nan
deriving DecidableEq

/-- The total order imposed by the `OrderedFloat(f64)` sort key used at enm.rs
line 119 (the `ordered-float` crate): IEEE order on the non-NaN values
(−∞ < finite < +∞), with NaN equal to itself and greater than every other
value. -/
def orderedFloatLe : F64 → F64 → Bool
  | F64.nan, F64.nan => true
  | F64.nan, _ => false
  | _, F64.nan => true
  | F64.negInf, _ => true
  | _, F64.negInf => false
  | F64.posInf, F64.posInf => true
  | F64.finite _, F64.posInf => true
  | F64.posInf, F64.finite _ => false
  | F64.finite a, F64.finite b => decide (a ≤ b)

/-- Entrywise symmetry of a matrix modelled as a total function. -/
def Symm {α : Type} (H : ℕ → ℕ → α) : Prop :=
  ∀ a b, H a b = H b a

/-- Every pair visited by the double loop satisfies `j < i < n`. -/
theorem mem_pairsUpTo {p : ℕ × ℕ} : ∀ {n : ℕ}, p ∈ pairsUpTo n → p.2 < p.1 ∧ p.1 < n := by
  intro n
  induction n with
  | zero => intro h; simp [pairsUpTo] at h
  | succ n ih =>
    intro hp
    rcases List.mem_append.1 hp with h | h
    · exact ⟨(ih h).1, Nat.lt_succ_of_lt (ih h).2⟩
    · rcases List.mem_map.1 h with ⟨j, hj, rfl⟩
      exact ⟨List.mem_range.1 hj, Nat.lt_succ_self n⟩

/-- A successful `build_hessian_matrix` returns exactly the matrix of the double
loop. -/
theorem buildHessianMatrix_eq_some {α : Type} [LinearOrderedField α] {fsqrt : α → α}
    {anm : AnisotropicNetworkModel α} {coords : List (α × α × α)}
    {masses : Option (List α)} {H : ℕ → ℕ → α}
    (h : buildHessianMatrix fsqrt anm coords masses = some H) :
    H = hessianRun fsqrt anm coords masses := by
  cases masses with
  | none =>
    simp only [buildHessianMatrix, Option.some.injEq] at h
    exact h.symm
  | some ms =>
    by_cases hl : ms.length = coords.length
    · simp only [buildHessianMatrix, hl, if_true, Option.some.injEq] at h
      exact h.symm
    · simp [buildHessianMatrix, hl] at h

/-- The super element is a symmetric 3×3 matrix. -/
theorem superElement_symm {α : Type} [LinearOrderedField α] (gamma : α) (rij : ℕ → α)
    (dist2 : α) (a b : ℕ) :
    superElement gamma rij dist2 a b = superElement gamma rij dist2 b a := by
  simp only [superElement]
  ring

/-- Writing a symmetric block into the two mirrored off-diagonal windows
preserves entrywise symmetry. -/
theorem writeBlock_pair_symm {α : Type} {H s : ℕ → ℕ → α} {i j : ℕ}
    (hH : Symm H) (hs : ∀ a b, s a b = s b a) :
    Symm (writeBlock (writeBlock H (i * 3) (j * 3) s) (j * 3) (i * 3) s) := by
  intro a b
  by_cases hji : j * 3 ≤ a ∧ a < j * 3 + 3 ∧ i * 3 ≤ b ∧ b < i * 3 + 3
  · by_cases hji2 : j * 3 ≤ b ∧ b < j * 3 + 3 ∧ i * 3 ≤ a ∧ a < i * 3 + 3
    · have hij : i = j := by omega
      subst hij
      simp only [writeBlock, if_pos hji, if_pos hji2]
      exact hs _ _
    · have hij2 : i * 3 ≤ b ∧ b < i * 3 + 3 ∧ j * 3 ≤ a ∧ a < j * 3 + 3 := by omega
      simp only [writeBlock, if_pos hji, if_neg hji2, if_pos hij2]
      exact hs _ _
  · by_cases hij : i * 3 ≤ a ∧ a < i * 3 + 3 ∧ j * 3 ≤ b ∧ b < j * 3 + 3
    · have hji2 : j * 3 ≤ b ∧ b < j * 3 + 3 ∧ i * 3 ≤ a ∧ a < i * 3 + 3 := by omega
      simp only [writeBlock, if_neg hji, if_pos hij, if_pos hji2]
      exact hs _ _
    · have h3 : ¬(j * 3 ≤ b ∧ b < j * 3 + 3 ∧ i * 3 ≤ a ∧ a < i * 3 + 3) := by omega
      have h4 : ¬(i * 3 ≤ b ∧ b < i * 3 + 3 ∧ j * 3 ≤ a ∧ a < j * 3 + 3) := by omega
      simp only [writeBlock, if_neg hji, if_neg hij, if_neg h3, if_neg h4]
      exact hH a b

/-- Subtracting a symmetric block from a diagonal window preserves entrywise
symmetry. -/
theorem subBlock_diag_symm {α : Type} [LinearOrderedField α] {H s : ℕ → ℕ → α} {r : ℕ}
    (hH : Symm H) (hs : ∀ a b, s a b = s b a) :
    Symm (subBlock H r r s) := by
  intro a b
  by_cases h : r ≤ a ∧ a < r + 3 ∧ r ≤ b ∧ b < r + 3
  · have h2 : r ≤ b ∧ b < r + 3 ∧ r ≤ a ∧ a < r + 3 := by omega
    simp only [subBlock, if_pos h, if_pos h2]
    rw [hH a b, hs]
  · have h2 : ¬(r ≤ b ∧ b < r + 3 ∧ r ≤ a ∧ a < r + 3) := by omega
    simp only [subBlock, if_neg h, if_neg h2]
    exact hH a b

/-- The four block operations of a pair preserve entrywise symmetry. -/
theorem blockStep_symm {α : Type} [LinearOrderedField α] {H s : ℕ → ℕ → α} {i j : ℕ}
    (hH : Symm H) (hs : ∀ a b, s a b = s b a) :
    Symm (blockStep s i j H) :=
  subBlock_diag_symm (subBlock_diag_symm (writeBlock_pair_symm hH hs) hs) hs

/-- Dividing the two mirrored scalar entries `(i, j)` and `(j, i)` by the same
divisor preserves entrywise symmetry. -/
theorem divideEntry_pair_symm {α : Type} [LinearOrderedField α] {H : ℕ → ℕ → α}
    {i j : ℕ} {d : α} (hH : Symm H) :
    Symm (divideEntry (divideEntry H i j d) j i d) := by
  intro a b
  by_cases h1 : a = j ∧ b = i
  · by_cases g1 : a = i ∧ b = j
    · have h2 : b = j ∧ a = i := ⟨g1.2, g1.1⟩
      have g2 : b = i ∧ a = j := ⟨h1.2, h1.1⟩
      simp only [divideEntry, if_pos h1, if_pos g1, if_pos h2, if_pos g2]
      rw [hH a b]
    · have h2 : ¬(b = j ∧ a = i) := by
        intro hc
        exact g1 ⟨hc.2, hc.1⟩
      have g2 : b = i ∧ a = j := ⟨h1.2, h1.1⟩
      simp only [divideEntry, if_pos h1, if_neg g1, if_neg h2, if_pos g2]
      rw [hH a b]
  · by_cases g1 : a = i ∧ b = j
    · have h2 : b = j ∧ a = i := ⟨g1.2, g1.1⟩
      have g2 : ¬(b = i ∧ a = j) := by
        intro hc
        exact h1 ⟨hc.2, hc.1⟩
      simp only [divideEntry, if_neg h1, if_pos g1, if_pos h2, if_neg g2]
      rw [hH a b]
    · have h2 : ¬(b = j ∧ a = i) := by
        intro hc
        exact g1 ⟨hc.2, hc.1⟩
      have g2 : ¬(b = i ∧ a = j) := by
        intro hc
        exact h1 ⟨hc.2, hc.1⟩
      simp only [divideEntry, if_neg h1, if_neg g1, if_neg h2, if_neg g2]
      exact hH a b

/-- Branching on a decidable condition between two symmetric matrices yields a
symmetric matrix. -/
theorem ite_symm {α : Type} {c : Prop} [Decidable c] {F G : ℕ → ℕ → α}
    (hF : Symm F) (hG : Symm G) : Symm (if c then F else G) := by
  split
  · exact hF
  · exact hG

/-- One loop-body step preserves entrywise symmetry, for every pair — the super
element is written into both off-diagonal windows and the same scalar divisor is
applied at `(i, j)` and `(j, i)`. -/
theorem pairUpdate_symm {α : Type} [LinearOrderedField α] (fsqrt : α → α)
    (anm : AnisotropicNetworkModel α) (coords : List (α × α × α))
    (masses : Option (List α)) {H : ℕ → ℕ → α} (p : ℕ × ℕ) (hH : Symm H) :
    Symm (pairUpdate fsqrt anm coords masses H p) := by
  simp only [pairUpdate]
  apply ite_symm
  · apply divideEntry_pair_symm
    apply ite_symm
    · exact blockStep_symm hH (superElement_symm _ _ _)
    · exact hH
  · apply ite_symm
    · exact blockStep_symm hH (superElement_symm _ _ _)
    · exact hH

/-- The whole double loop preserves entrywise symmetry. -/
theorem foldl_pairUpdate_symm {α : Type} [LinearOrderedField α] (fsqrt : α → α)
    (anm : AnisotropicNetworkModel α) (coords : List (α × α × α))
    (masses : Option (List α)) :
    ∀ (L : List (ℕ × ℕ)) (H : ℕ → ℕ → α), Symm H →
      Symm (L.foldl (pairUpdate fsqrt anm coords masses) H) := by
  intro L
  induction L with
  | nil => intro H hH; exact hH
  | cons p L ih =>
    intro H hH
    exact ih _ (pairUpdate_symm fsqrt anm coords masses p hH)

/-- The matrix of the double loop is entrywise symmetric. -/
theorem hessianRun_symm {α : Type} [LinearOrderedField α] (fsqrt : α → α)
    (anm : AnisotropicNetworkModel α) (coords : List (α × α × α))
    (masses : Option (List α)) :
    Symm (hessianRun fsqrt anm coords masses) :=
  foldl_pairUpdate_symm fsqrt anm coords masses _ _ (fun _ _ => rfl)

/-- C4: every matrix returned by `build_hessian_matrix` — any coordinates, any
masses, any configuration, mass-weighted included — has its 3×3 block at `(i, j)`
equal to the transpose of the block at `(j, i)`. The symmetry comes from the
construction itself (the symmetric super element is written into both mirrored
off-diagonal windows and the same scalar divisor is applied at `(i, j)` and
`(j, i)`); no symmetrization pass exists in the code. -/
theorem build_hessian_block_symmetric (anm : AnisotropicNetworkModel ℝ)
    (coords : List (ℝ × ℝ × ℝ)) (masses : Option (List ℝ)) (H : ℕ → ℕ → ℝ)
    (h : buildHessianMatrix Real.sqrt anm coords masses = some H)
    (i j a b : ℕ) (ha : a < 3) (hb : b < 3) :
    H (i * 3 + a) (j * 3 + b) = H (j * 3 + b) (i * 3 + a) := by
  rw [buildHessianMatrix_eq_some h]
  exact hessianRun_symm Real.sqrt anm coords masses _ _

/-- Closed instance of C4 at a concrete one-atom input. -/
theorem build_hessian_block_symmetric_witness :
    buildHessianMatrix Real.sqrt anmDefault [((0 : ℝ), 0, 0)] none
        = some (hessianRun Real.sqrt anmDefault [((0 : ℝ), 0, 0)] none)
      ∧ hessianRun Real.sqrt anmDefault [((0 : ℝ), 0, 0)] none (0 * 3 + 1) (1 * 3 + 2)
        = hessianRun Real.sqrt anmDefault [((0 : ℝ), 0, 0)] none (1 * 3 + 2) (0 * 3 + 1) :=
  ⟨rfl,
    build_hessian_block_symmetric anmDefault [((0 : ℝ), 0, 0)] none _ rfl 0 1 1 2
      (by decide) (by decide)⟩

/-- Translating the coordinates leaves every pairwise displacement unchanged. -/
theorem rijOf_translateCoords {α : Type} [LinearOrderedField α] (t : α × α × α)
    (coords : List (α × α × α)) {i j : ℕ} (hi : i < coords.length)
    (hj : j < coords.length) :
    rijOf (translateCoords t coords) i j = rijOf coords i j := by
  have hi2 : i < (translateCoords t coords).length := by
    simpa [translateCoords] using hi
  have hj2 : j < (translateCoords t coords).length := by
    simpa [translateCoords] using hj
  funext k
  have hgi : coords[i]? = some coords[i] := List.getElem?_eq_getElem hi
  have hgj : coords[j]? = some coords[j] := List.getElem?_eq_getElem hj
  simp only [rijOf, List.getD_eq_getElem?_getD, translateCoords, List.getElem?_map,
    hgi, hgj, Option.map_some', Option.getD_some]
  rcases k with _ | _ | k <;> simp only [comp] <;> ring

/-- One loop-body step is unchanged by a rigid translation of all coordinates,
because both atoms of the pair are in range and the body depends on the
coordinates only through the displacement `rij`. -/
theorem pairUpdate_translateCoords {α : Type} [LinearOrderedField α] (fsqrt : α → α)
    (anm : AnisotropicNetworkModel α) (t : α × α × α) (coords : List (α × α × α))
    (masses : Option (List α)) (H : ℕ → ℕ → α) (p : ℕ × ℕ)
    (hi : p.1 < coords.length) (hj : p.2 < coords.length) :
    pairUpdate fsqrt anm (translateCoords t coords) masses H p
      = pairUpdate fsqrt anm coords masses H p := by
  simp only [pairUpdate, rijOf_translateCoords t coords hi hj]

/-- C8: translating every coordinate by one constant vector leaves the matrix
returned by `build_hessian_matrix` unchanged, exactly — for every configuration,
every optional mass array and every translation. -/
theorem build_hessian_translation_invariant (anm : AnisotropicNetworkModel ℝ)
    (coords : List (ℝ × ℝ × ℝ)) (masses : Option (List ℝ)) (t : ℝ × ℝ × ℝ) :
    buildHessianMatrix Real.sqrt anm (translateCoords t coords) masses
      = buildHessianMatrix Real.sqrt anm coords masses := by
  have hlen : (translateCoords t coords).length = coords.length := by
    simp [translateCoords]
  have hrun : hessianRun Real.sqrt anm (translateCoords t coords) masses
      = hessianRun Real.sqrt anm coords masses := by
    unfold hessianRun
    rw [hlen]
    exact List.foldl_ext _ _ _ (fun H p hp =>
      pairUpdate_translateCoords Real.sqrt anm t coords masses H p
        (mem_pairsUpTo hp).2 (Nat.lt_trans (mem_pairsUpTo hp).1 (mem_pairsUpTo hp).2))
  cases masses with
  | none => simp only [buildHessianMatrix, hrun]
  | some ms => simp only [buildHessianMatrix, hlen, hrun]

/-- C5 counterexample: with a single atom (so N = 1 < 2) and no mass array,
`build_hessian_matrix` does not fail — it returns the 3×3 zero matrix. -/
theorem build_hessian_single_atom_succeeds :
    buildHessianMatrix Real.sqrt anmDefault [((0 : ℝ), 0, 0)] none
        = some (fun _ _ => (0 : ℝ))
      ∧ [((0 : ℝ), 0, 0)].length < 2 :=
  ⟨rfl, by decide⟩

/-- C5 amended: `build_hessian_matrix` aborts (assertion failure, modelled as
`none`) exactly when a supplied mass array's length differs from the number of
atoms; fewer than 2 atoms is not rejected — the loop simply has no pairs and the
zero matrix is returned. -/
theorem build_hessian_fails_iff (anm : AnisotropicNetworkModel ℝ)
    (coords : List (ℝ × ℝ × ℝ)) (masses : Option (List ℝ)) :
    buildHessianMatrix Real.sqrt anm coords masses = none
      ↔ ∃ ms, masses = some ms ∧ ms.length ≠ coords.length := by
  cases masses with
  | none => simp [buildHessianMatrix]
  | some ms =>
    by_cases h : ms.length = coords.length <;> simp [buildHessianMatrix, h]

/-- C10: with `mass_weighted` set and no mass array supplied, every atom gets the
fixed carbon default mass 12.011, so the divisor of every pair's mass-weighting
division is `sqrt(12.011) * sqrt(12.011) = 12.011`. -/
theorem default_mass_divisor (i j : ℕ) :
    atomMass (α := ℝ) none i = 12.011
      ∧ pairMassFactor Real.sqrt none i j = 12.011 := by
  refine ⟨rfl, ?_⟩
  show Real.sqrt 12.011 * Real.sqrt 12.011 = (12.011 : ℝ)
  exact Real.mul_self_sqrt (by norm_num)

/-- C6: the unit-conversion branch of `calculate_normal_modes` is applied
uniformly. With `mass_weighted` the output is exactly the non-weighted output
with every retained eigenvalue mapped through `sqrt(v) * 1302.79` and the
eigenvectors untouched; without it the sorted eigenvalues pass through
unmodified. -/
theorem mass_weighted_frequency_conversion (cutoff gamma : ℝ) (le : ℝ → ℝ → Bool)
    (evalues : List ℝ) (vectors : List (List ℝ)) :
    calculateNormalModes le (fun v => Real.sqrt v * 1302.79)
        ⟨cutoff, gamma, true⟩ evalues vectors
        = (calculateNormalModes le (fun v => Real.sqrt v * 1302.79)
            ⟨cutoff, gamma, false⟩ evalues vectors).map
            (fun p => (Real.sqrt p.1 * 1302.79, p.2))
      ∧ calculateNormalModes le (fun v => Real.sqrt v * 1302.79)
          ⟨cutoff, gamma, false⟩ evalues vectors
          = (sortModes le (evalues.zip vectors)).drop 6 := by
  constructor
  · simp only [calculateNormalModes, if_true, if_false, ← List.map_drop,
      List.map_map]
    rfl
  · simp only [calculateNormalModes, if_false]
    simp

/-- The sorted eigenpair list is pairwise ordered by the comparator, whenever the
comparator is transitive and total. -/
theorem sortModes_pairwise {α β : Type} (le : α → α → Bool)
    (htrans : ∀ a b c, le a b = true → le b c = true → le a c = true)
    (htotal : ∀ a b, le a b = true ∨ le b a = true) (xs : List (α × β)) :
    List.Pairwise (fun p q : α × β => le p.1 q.1 = true) (sortModes le xs) := by
  apply List.sorted_mergeSort
  · exact fun a b c hab hbc => htrans a.1 b.1 c.1 hab hbc
  · intro a b
    rcases htotal a.1 b.1 with h | h <;> simp [h]

/-- C2: given the 3N eigenvalues and eigenvector columns of a Hessian of N ≥ 3
atoms, `calculate_normal_modes` returns exactly 3N − 6 eigenpairs, pairwise
non-decreasing in eigenvalue, equal to the stably sorted full list (a
permutation of the input eigenpairs) with its six lowest-positioned entries
dropped. The comparator is the order on `ℝ` (what `OrderedFloat` is on NaN-free
values). -/
theorem normal_modes_count_sorted (n : ℕ) (hn : 3 ≤ n)
    (anm : AnisotropicNetworkModel ℝ) (le : ℝ → ℝ → Bool)
    (hle : ∀ a b : ℝ, le a b = true ↔ a ≤ b)
    (evalues : List ℝ) (vectors : List (List ℝ))
    (he : evalues.length = 3 * n) (hv : vectors.length = 3 * n) :
    (calculateNormalModes le (fun v => Real.sqrt v * 1302.79) anm evalues
        vectors).length = 3 * n - 6
      ∧ List.Pairwise (fun p q : ℝ × List ℝ => p.1 ≤ q.1)
          (calculateNormalModes le (fun v => Real.sqrt v * 1302.79) anm evalues vectors)
      ∧ calculateNormalModes le (fun v => Real.sqrt v * 1302.79) anm evalues vectors
          = ((sortModes le (evalues.zip vectors)).map
              (fun p => (if anm.mass_weighted then Real.sqrt p.1 * 1302.79 else p.1,
                p.2))).drop 6
      ∧ (sortModes le (evalues.zip vectors)).Perm (evalues.zip vectors) := by
  have hsorted : List.Pairwise (fun p q : ℝ × List ℝ => p.1 ≤ q.1)
      (sortModes le (evalues.zip vectors)) := by
    have h := sortModes_pairwise le
      (fun a b c hab hbc => (hle a c).2 (le_trans ((hle a b).1 hab) ((hle b c).1 hbc)))
      (fun a b => by
        rcases le_total a b with h | h
        · exact Or.inl ((hle a b).2 h)
        · exact Or.inr ((hle b a).2 h))
      (evalues.zip vectors)
    exact h.imp (fun hab => (hle _ _).1 hab)
  refine ⟨?_, ?_, rfl, List.mergeSort_perm _ _⟩
  · simp [calculateNormalModes, sortModes, List.length_zip, he, hv]
  · apply List.Pairwise.sublist (List.drop_sublist 6 _)
    rw [List.pairwise_map]
    apply hsorted.imp
    intro p q hpq
    by_cases hmw : anm.mass_weighted
    · simp only [hmw, if_true]
      exact mul_le_mul_of_nonneg_right (Real.sqrt_le_sqrt hpq) (by norm_num)
    · simp only [hmw, if_false]
      exact hpq

/-- Closed instance of C2 at N = 3 with nine concrete eigenvalues. -/
theorem normal_modes_count_sorted_witness :
    (calculateNormalModes (fun a b : ℝ => decide (a ≤ b))
        (fun v => Real.sqrt v * 1302.79) anmDefault
        [(0 : ℝ), 1, 2, 3, 4, 5, 6, 7, 8]
        (List.replicate 9 ([] : List ℝ))).length = 3 * 3 - 6 :=
  (normal_modes_count_sorted 3 (by norm_num) anmDefault
    (fun a b : ℝ => decide (a ≤ b)) (fun a b => by simp)
    [(0 : ℝ), 1, 2, 3, 4, 5, 6, 7, 8] (List.replicate 9 ([] : List ℝ)) rfl rfl).1

/-- C7: the `OrderedFloat` comparator is a total order on f64 values — total,
transitive and antisymmetric even in the presence of the infinities and NaN —
with NaN ordered after every value (in particular after every finite value and
after +∞), and sorting eigenpairs with it produces a pairwise-ascending
permutation of the input. -/
theorem ordered_float_total_order_sort :
    (∀ x y : F64, orderedFloatLe x y = true ∨ orderedFloatLe y x = true)
      ∧ (∀ x y z : F64, orderedFloatLe x y = true → orderedFloatLe y z = true →
          orderedFloatLe x z = true)
      ∧ (∀ x y : F64, orderedFloatLe x y = true → orderedFloatLe y x = true → x = y)
      ∧ (∀ x : F64, orderedFloatLe x F64.nan = true)
      ∧ orderedFloatLe F64.posInf F64.nan = true
      ∧ (∀ xs : List (F64 × List ℝ),
          List.Pairwise (fun p q : F64 × List ℝ => orderedFloatLe p.1 q.1 = true)
              (sortModes orderedFloatLe xs)
            ∧ (sortModes orderedFloatLe xs).Perm xs) := by
  have htotal : ∀ x y : F64, orderedFloatLe x y = true ∨ orderedFloatLe y x = true := by
    intro x y
    cases x <;> cases y <;> simp [orderedFloatLe] <;> exact le_total _ _
  have htrans : ∀ x y z : F64, orderedFloatLe x y = true → orderedFloatLe y z = true →
      orderedFloatLe x z = true := by
    intro x y z hxy hyz
    cases x <;> cases y <;> cases z <;>
      simp_all [orderedFloatLe] <;> exact le_trans hxy hyz
  refine ⟨htotal, htrans, ?_, ?_, rfl, ?_⟩
  · intro x y hxy hyx
    cases x <;> cases y <;> simp_all [orderedFloatLe]
    exact le_antisymm hxy hyx
  · intro x
    cases x <;> rfl
  · intro xs
    exact ⟨sortModes_pairwise orderedFloatLe (fun a b c => htrans a b c)
      (fun a b => htotal a b) xs, List.mergeSort_perm _ _⟩

/-- Closed instance of C7: NaN sorts after +∞ under the comparator. -/
theorem ordered_float_total_order_sort_witness :
    orderedFloatLe F64.posInf F64.nan = true :=
  ordered_float_total_order_sort.2.2.2.2.1

/-- C9 counterexample: a concrete non-symmetric matrix (entry (0,1) is 1, entry
(1,0) is 0) on which the claim demands a `DecompositionError`, yet the code
returns an ordinary mode list — `calculate_normal_modes` performs no symmetry
check, its return type carries no error, and the delegated eigensolver
primitive is total. The solver and comparator instances are concrete stand-ins
for the external primitives. -/
theorem normal_modes_no_error_on_asymmetric :
    (fun a b : ℕ => if a = 0 ∧ b = 1 then (1 : ℝ) else 0) 0 1
        ≠ (fun a b : ℕ => if a = 0 ∧ b = 1 then (1 : ℝ) else 0) 1 0
      ∧ calculateNormalModesMatrix (fun _ _ => true)
          (fun v => Real.sqrt v * 1302.79) anmDefault
          (fun _ => ⟨[0, 1, 2, 3, 4, 5, 6, 7, 8], List.replicate 9 []⟩)
          (fun a b : ℕ => if a = 0 ∧ b = 1 then (1 : ℝ) else 0)
        = [(6, []), (7, []), (8, [])] := by
  constructor
  · norm_num
  · simp only [calculateNormalModesMatrix, calculateNormalModes, sortModes]
    rw [List.mergeSort_of_sorted (List.pairwise_of_forall (fun _ _ => rfl))]
    simp [anmDefault, List.replicate]

/-- C9 amended: `calculate_normal_modes` cannot fail. There is no error type in
the crate, no symmetry-tolerance check, and no convergence signal from the
delegated eigensolver; for every input matrix — numerically symmetric or not —
and every solver output, it returns a plain list of (eigenpair count − 6)
modes. -/
theorem normal_modes_never_fail (le : ℝ → ℝ → Bool)
    (anm : AnisotropicNetworkModel ℝ) (solver : (ℕ → ℕ → ℝ) → EigenOut ℝ)
    (hessian : ℕ → ℕ → ℝ) :
    (calculateNormalModesMatrix le (fun v => Real.sqrt v * 1302.79) anm solver
        hessian).length
      = min (solver hessian).eigenvalues.length
          (solver hessian).eigenvectors.length - 6 := by
  simp [calculateNormalModesMatrix, calculateNormalModes, sortModes,
    List.length_zip]

/-- For two atoms the double loop visits exactly the pair (1, 0), so each matrix
entry is one loop-body step applied to the zero matrix. -/
theorem twoAtomEntry (a b : ℕ) (v : ℝ)
    (h : pairUpdate Real.sqrt anmMassWeighted [((1 : ℝ), 2, 3), (2, 3, 3)]
      (some [4, 4]) (fun _ _ => 0) (1, 0) a b = v) :
    hessianRun Real.sqrt anmMassWeighted [((1 : ℝ), 2, 3), (2, 3, 3)]
      (some [4, 4]) a b = v := by
  rw [show hessianRun Real.sqrt anmMassWeighted [((1 : ℝ), 2, 3), (2, 3, 3)]
        (some [4, 4])
      = pairUpdate Real.sqrt anmMassWeighted [((1 : ℝ), 2, 3), (2, 3, 3)]
          (some [4, 4]) (fun _ _ => 0) (1, 0) from rfl]
  exact h

/-- Entry (0, 4) — inside the off-diagonal 3×3 block (0, 1) — of the mass-weighted
two-atom Hessian with masses [4, 4]: it keeps the raw super-element value −1/2;
the divisor 4 is never applied to it. -/
theorem twoAtomEntry04 :
    hessianRun Real.sqrt anmMassWeighted [((1 : ℝ), 2, 3), (2, 3, 3)]
      (some [4, 4]) 0 4 = -(1 / 2) := by
  apply twoAtomEntry
  have hs : Real.sqrt 4 * Real.sqrt 4 = 4 := Real.mul_self_sqrt (by norm_num)
  norm_num [pairUpdate, rijOf, anmMassWeighted, blockStep, superElement, writeBlock,
    subBlock, divideEntry, pairMassFactor, atomMass, comp, hs]

/-- Entry (3, 1) — inside the off-diagonal 3×3 block (1, 0) — of the mass-weighted
two-atom Hessian with masses [4, 4]: likewise undivided. -/
theorem twoAtomEntry31 :
    hessianRun Real.sqrt anmMassWeighted [((1 : ℝ), 2, 3), (2, 3, 3)]
      (some [4, 4]) 3 1 = -(1 / 2) := by
  apply twoAtomEntry
  have hs : Real.sqrt 4 * Real.sqrt 4 = 4 := Real.mul_self_sqrt (by norm_num)
  norm_num [pairUpdate, rijOf, anmMassWeighted, blockStep, superElement, writeBlock,
    subBlock, divideEntry, pairMassFactor, atomMass, comp, hs]

/-- Entry (0, 1) — a scalar entry inside the diagonal 3×3 block (0, 0) — of the
mass-weighted two-atom Hessian with masses [4, 4]: the accumulated value 1/2 is
divided by `sqrt(4) * sqrt(4) = 4`, because the code divides the atom-indexed
scalar entries `hessian[(i, j)]`, `hessian[(j, i)]` rather than the 3×3 blocks. -/
theorem twoAtomEntry01 :
    hessianRun Real.sqrt anmMassWeighted [((1 : ℝ), 2, 3), (2, 3, 3)]
      (some [4, 4]) 0 1 = 1 / 8 := by
  apply twoAtomEntry
  have hs : Real.sqrt 4 * Real.sqrt 4 = 4 := Real.mul_self_sqrt (by norm_num)
  norm_num [pairUpdate, rijOf, anmMassWeighted, blockStep, superElement, writeBlock,
    subBlock, divideEntry, pairMassFactor, atomMass, comp, hs]

/-- Entry (1, 0), the mirrored scalar entry: also divided by 4. -/
theorem twoAtomEntry10 :
    hessianRun Real.sqrt anmMassWeighted [((1 : ℝ), 2, 3), (2, 3, 3)]
      (some [4, 4]) 1 0 = 1 / 8 := by
  apply twoAtomEntry
  have hs : Real.sqrt 4 * Real.sqrt 4 = 4 := Real.mul_self_sqrt (by norm_num)
  norm_num [pairUpdate, rijOf, anmMassWeighted, blockStep, superElement, writeBlock,
    subBlock, divideEntry, pairMassFactor, atomMass, comp, hs]

/-- C1: with `mass_weighted` set, the division by `sqrt(mass[i] * mass[j])` is NOT
applied to the 3×3 off-diagonal blocks or to the diagonal accumulation — only the
two atom-indexed scalar entries `hessian[(i, j)]` and `hessian[(j, i)]` are
divided (enm.rs lines 98-99). Concretely, for two atoms at (1,2,3) and (2,3,3)
with masses [4, 4]: the off-diagonal block entries (0, 4) and (3, 1) keep the
undivided value −1/2 (block-wise weighting would give −1/8), while the stray
scalar divisions land inside the diagonal block (0, 0), turning its entries
(0, 1) and (1, 0) from 1/2 into 1/8. -/
theorem mass_weighting_divides_scalar_entries_only :
    buildHessianMatrix Real.sqrt anmMassWeighted [((1 : ℝ), 2, 3), (2, 3, 3)]
        (some [4, 4])
        = some (hessianRun Real.sqrt anmMassWeighted [((1 : ℝ), 2, 3), (2, 3, 3)]
            (some [4, 4]))
      ∧ hessianRun Real.sqrt anmMassWeighted [((1 : ℝ), 2, 3), (2, 3, 3)]
          (some [4, 4]) 0 4 = -(1 / 2)
      ∧ hessianRun Real.sqrt anmMassWeighted [((1 : ℝ), 2, 3), (2, 3, 3)]
          (some [4, 4]) 3 1 = -(1 / 2)
      ∧ hessianRun Real.sqrt anmMassWeighted [((1 : ℝ), 2, 3), (2, 3, 3)]
          (some [4, 4]) 0 1 = 1 / 8
      ∧ hessianRun Real.sqrt anmMassWeighted [((1 : ℝ), 2, 3), (2, 3, 3)]
          (some [4, 4]) 1 0 = 1 / 8 :=
  ⟨rfl, twoAtomEntry04, twoAtomEntry31, twoAtomEntry01, twoAtomEntry10⟩

/-- C3: the zero-row-sum (translational-invariance) invariant fails for a
mass-weighted matrix returned by `build_hessian_matrix`. For two atoms at
(1,2,3) and (2,3,3) with masses [4, 4], the sum over atom 0's row of
off-diagonal blocks at block position (0, 1) is −1/2, but the negated diagonal
block holds −1/8 there: the stray scalar division of entry (0, 1) broke the
balance between the off-diagonal write and the diagonal accumulation. -/
theorem zero_row_sum_violated_when_mass_weighted :
    buildHessianMatrix Real.sqrt anmMassWeighted [((1 : ℝ), 2, 3), (2, 3, 3)]
        (some [4, 4])
        = some (hessianRun Real.sqrt anmMassWeighted [((1 : ℝ), 2, 3), (2, 3, 3)]
            (some [4, 4]))
      ∧ ¬ ((Finset.range 2).sum
            (fun j => if j = 0 then 0
              else hessianRun Real.sqrt anmMassWeighted [((1 : ℝ), 2, 3), (2, 3, 3)]
                (some [4, 4]) (0 * 3 + 0) (j * 3 + 1))
          = -(hessianRun Real.sqrt anmMassWeighted [((1 : ℝ), 2, 3), (2, 3, 3)]
              (some [4, 4]) (0 * 3 + 0) (0 * 3 + 1))) := by
  refine ⟨rfl, ?_⟩
  rw [Finset.sum_range_succ, Finset.sum_range_succ, Finset.sum_range_zero]
  norm_num [twoAtomEntry04, twoAtomEntry01]

end ENM
